import Mathlib

/-!
Verification of the noise-resampling and mixing pipeline of
ComfyUI-VideoNoiseWarp (`nodes.py`).

The embedding models:
* `resize_list`, `split_into_n_sublists`, `downsamp_mean`,
  `normalized_noises`, `get_downtemp_noise` from `nodes.py`
  (lines 15-59), over exact field arithmetic (machine floats are
  idealised as elements of a field, instantiated at `ℚ`/`ℝ` in the
  theorems);
* Python-level semantics that matter here: `round` (banker's
  rounding, half to even) as `pyRound` on `ℚ`, list indexing as
  `pyIndex` (negative indices wrap, out-of-range raises), slices as
  `pySlice`, and `sum(u)/len(u)` on an empty block raising
  `ZeroDivisionError` (encoded as `Option`: `none` = the Python call
  raises);
* the pipeline driver `GetWarpedNoiseFromVideo.warp` (lines 80-161),
  with the external collaborators (RAFT optical flow, the
  `NoiseWarper` and the area-interpolation kernel, which are not part
  of `nodes.py`) abstracted as explicit function parameters, and the
  torch global RNG as explicit state;
* `mix_new_noise`, whose defining module is not available, modelled
  from the spec.

A tensor of shape (T, C, H, W) is a `List (Frame α)` where
`Frame α := List (List (List α))` (channels, then rows, then row
entries).
-/

set_option maxHeartbeats 1000000

/-- Indexed map over a list, carrying the position (starting at `s`).
Used to embed comprehensions whose body mentions the loop index. -/
def mapFrom {β γ : Type*} (f : ℕ → β → γ) : ℕ → List β → List γ
  | _, [] => []
  | s, x :: xs => f s x :: mapFrom f (s + 1) xs

theorem mapFrom_length {β γ : Type*} (f : ℕ → β → γ) (s : ℕ) (l : List β) :
    (mapFrom f s l).length = l.length := by
  induction l generalizing s with
  | nil => rfl
  | cons x xs ih => simp [mapFrom, ih]

theorem mapFrom_get? {β γ : Type*} (f : ℕ → β → γ) (s i : ℕ) (l : List β) :
    (mapFrom f s l).get? i = (l.get? i).map (f (s + i)) := by
  induction l generalizing s i with
  | nil => simp [mapFrom]
  | cons x xs ih =>
    cases i with
    | zero => simp [mapFrom]
    | succ j =>
      have := ih (s + 1) j
      rw [show s + 1 + j = s + (j + 1) by omega] at this
      simpa [mapFrom] using this

theorem mapFrom_id {β : Type*} (s : ℕ) (l : List β) :
    mapFrom (fun _ x => x) s l = l := by
  induction l generalizing s with
  | nil => rfl
  | cons x xs ih => simp [mapFrom, ih]

/-- Evaluate `f` on each element, failing (as the corresponding Python
comprehension would raise) as soon as one element fails. -/
def optionMap {β γ : Type*} (f : β → Option γ) : List β → Option (List γ)
  | [] => some []
  | x :: xs =>
    match f x, optionMap f xs with
    | some y, some ys => some (y :: ys)
    | _, _ => none

theorem optionMap_isSome {β γ : Type*} (f : β → Option γ) (l : List β)
    (h : ∀ x ∈ l, (f x).isSome) : ∃ ys, optionMap f l = some ys := by
  induction l with
  | nil => exact ⟨[], rfl⟩
  | cons x xs ih =>
    obtain ⟨ys, hys⟩ := ih fun a ha => h a (List.mem_cons_of_mem _ ha)
    obtain ⟨y, hy⟩ := Option.isSome_iff_exists.mp (h x (List.mem_cons_self _ _))
    exact ⟨y :: ys, by simp [optionMap, hy, hys]⟩

theorem optionMap_length {β γ : Type*} (f : β → Option γ) (l : List β)
    (ys : List γ) (h : optionMap f l = some ys) : ys.length = l.length := by
  induction l generalizing ys with
  | nil => simp [optionMap] at h; simp [← h]
  | cons x xs ih =>
    rcases hx : f x with _ | y <;> rcases hxs : optionMap f xs with _ | zs <;>
      simp [optionMap, hx, hxs] at h
    subst h
    simp [ih zs hxs]

theorem optionMap_get? {β γ : Type*} (f : β → Option γ) (l : List β)
    (ys : List γ) (h : optionMap f l = some ys) (k : ℕ) :
    ys.get? k = (l.get? k).bind f := by
  induction l generalizing ys k with
  | nil =>
    simp [optionMap] at h
    subst h
    simp
  | cons x xs ih =>
    rcases hx : f x with _ | y <;> rcases hxs : optionMap f xs with _ | zs <;>
      simp [optionMap, hx, hxs] at h
    subst h
    cases k with
    | zero => simp [hx]
    | succ j => simpa using ih zs hxs j

/-- Python slice `l[a:b]` for `0 ≤ a ≤ b` (clamped at the end of the
list, exactly as Python clamps). -/
def pySlice {β : Type*} (l : List β) (a b : ℕ) : List β :=
  (l.drop a).take (b - a)

theorem pySlice_append {β : Type*} (l : List β) (a b c : ℕ)
    (hab : a ≤ b) (hbc : b ≤ c) :
    pySlice l a b ++ pySlice l b c = pySlice l a c := by
  unfold pySlice
  have hdrop : l.drop b = (l.drop a).drop (b - a) := by
    rw [List.drop_drop]
    congr 1
    omega
  rw [hdrop, ← List.take_add]
  congr 1
  omega

theorem pySlice_zero_length {β : Type*} (l : List β) :
    pySlice l 0 l.length = l := by
  simp [pySlice]

theorem pySlice_ne_nil {β : Type*} (l : List β) (a b : ℕ)
    (hab : a < b) (ha : a < l.length) : pySlice l a b ≠ [] := by
  have : (pySlice l a b).length = min (b - a) (l.length - a) := by
    simp [pySlice]
  intro hnil
  rw [hnil] at this
  simp at this
  omega

/-- Python list indexing `l[i]` for an integer `i`: negative indices
count from the end, out-of-range raises `IndexError` (`none`). -/
def pyIndex {β : Type*} (l : List β) (i : ℤ) : Option β :=
  let j : ℤ := if i < 0 then i + l.length else i
  if 0 ≤ j then l.get? j.toNat else none

theorem pyIndex_of_nonneg {β : Type*} (l : List β) (i : ℤ) (h : 0 ≤ i) :
    pyIndex l i = l.get? i.toNat := by
  rcases Int.lt_or_le i 0 with h' | h'
  · omega
  · simp [pyIndex, Int.not_lt.mpr h', h]

/-- Python 3 `round` on an exact rational: round half to even. -/
def pyRound (q : ℚ) : ℤ :=
  if q - ⌊q⌋ < 1/2 then ⌊q⌋
  else if 1/2 < q - ⌊q⌋ then ⌊q⌋ + 1
  else if ⌊q⌋ % 2 = 0 then ⌊q⌋ else ⌊q⌋ + 1

theorem floor_le_pyRound (q : ℚ) : ⌊q⌋ ≤ pyRound q := by
  unfold pyRound
  split_ifs <;> omega

theorem pyRound_le_floor_add_one (q : ℚ) : pyRound q ≤ ⌊q⌋ + 1 := by
  unfold pyRound
  split_ifs <;> omega

theorem pyRound_intCast (n : ℤ) : pyRound (n : ℚ) = n := by
  have h : ⌊(n : ℚ)⌋ = n := Int.floor_intCast n
  unfold pyRound
  rw [h]
  have : (n : ℚ) - n = 0 := by ring
  rw [this]
  norm_num

theorem pyRound_mono {q q' : ℚ} (h : q ≤ q') : pyRound q ≤ pyRound q' := by
  have hf : ⌊q⌋ ≤ ⌊q'⌋ := Int.floor_le_floor h
  rcases lt_or_eq_of_le hf with hlt | heq
  · calc pyRound q ≤ ⌊q⌋ + 1 := pyRound_le_floor_add_one q
      _ ≤ ⌊q'⌋ := by omega
      _ ≤ pyRound q' := floor_le_pyRound q'
  · have hr : q - ⌊q⌋ ≤ q' - ⌊q'⌋ := by
      rw [← heq]
      linarith
    unfold pyRound
    rw [← heq]
    split_ifs <;> first | omega | linarith

theorem pyRound_nonneg {q : ℚ} (h : 0 ≤ q) : 0 ≤ pyRound q := by
  have : (0 : ℤ) ≤ ⌊q⌋ := Int.floor_nonneg.mpr h
  have := floor_le_pyRound q
  omega

/-- A noise frame in CHW layout: channels, each a list of `H` rows of
`W` entries. -/
@[reducible] def Frame (α : Type) : Type := List (List (List α))

/-- Elementwise sum of two frames (torch broadcast `+` on
equal-shaped tensors). -/
def frameAdd {α : Type} [Field α] (x y : Frame α) : Frame α :=
  List.zipWith (List.zipWith (List.zipWith (· + ·))) x y

/-- Divide every entry of a frame by a natural number (torch
`tensor / int`). -/
def frameDiv {α : Type} [Field α] (x : Frame α) (n : ℕ) : Frame α :=
  x.map (fun ch => ch.map (fun row => row.map (fun v => v / (n : α))))

/-- Multiply every entry of a frame by a scalar. -/
def frameScale {α : Type} [Field α] (c : α) (x : Frame α) : Frame α :=
  x.map (fun ch => ch.map (fun row => row.map (fun v => c * v)))

/-- `nodes.py` lines 34-48, `resize_list(array, length)`:
`step = (len(array)-1)/(length-1)` when both exceed 1, else `0`;
`indices = [round(i*step) for i in range(length)]`; then gather.
The `assert length >= 0` is captured by `length : ℕ`; a failing
gather (impossible for these indices, see `claim_C10`) is `none`. -/
def resizeStep (L T : ℕ) : ℚ :=
  if 1 < L ∧ 1 < T then ((L : ℚ) - 1) / ((T : ℚ) - 1) else 0

def resizeIndices (L T : ℕ) : List ℤ :=
  (List.range T).map fun (i : ℕ) => pyRound ((i : ℚ) * resizeStep L T)

def resize_list {β : Type*} (array : List β) (length : ℕ) : Option (List β) :=
  optionMap (pyIndex array) (resizeIndices array.length length)

/-- `nodes.py` lines 50-59, `split_into_n_sublists(l, n)`:
`indices = [int(i*L/n) for i in range(n+1)]` (exact floor division on
non-negative integers), blocks `l[indices[i]:indices[i+1]]`.
`n <= 0` raises `ValueError` (`none`). The `isinstance(l, str)`
branch is irrelevant for this pipeline (its callers only pass
tensors) and is not modelled. -/
def split_into_n_sublists {β : Type*} (l : List β) (n : ℕ) :
    Option (List (List β)) :=
  if n = 0 then none
  else some ((List.range n).map fun i =>
    pySlice l (i * l.length / n) ((i + 1) * l.length / n))

/-- Python `sum(u) / len(u)` over a block of frames: `sum` starts from
the integer `0`, so a nonempty block folds elementwise addition over
its frames; an empty block raises `ZeroDivisionError` (`none`). -/
def pyMean {α : Type} [Field α] : List (Frame α) → Option (Frame α)
  | [] => none
  | f :: fs => some (frameDiv (fs.foldl frameAdd f) (fs.length + 1))

/-- `nodes.py` lines 27-28, `downsamp_mean(x, l)`:
`torch.stack([sum(u)/len(u) for u in split_into_n_sublists(x, l)])`. -/
def downsamp_mean {α : Type} [Field α] (x : List (Frame α)) (l : ℕ) :
    Option (List (Frame α)) :=
  (split_into_n_sublists x l).bind (optionMap pyMean)

/-- The entries of column `w` of a channel (one value per row): the
values torch's `std(1, ...)` reduces over for a CHW tensor. -/
def column {α : Type} [Field α] (ch : List (List α)) (w : ℕ) : List α :=
  ch.map (fun row => row.getD w 0)

/-- Arithmetic mean of a list of field elements. -/
def lmean {α : Type} [Field α] (xs : List α) : α :=
  xs.sum / (xs.length : α)

/-- Bessel-corrected (unbiased) sample variance, torch's default for
`Tensor.std`. -/
def uvar {α : Type} [Field α] (xs : List α) : α :=
  ((xs.map (fun a => (a - lmean xs) ^ 2)).sum) / ((xs.length : α) - 1)

/-- One element of `normalized_noises`: `x / x.std(1, keepdim=True)`
for `x` of shape (C, H, W). Dim 1 is the height axis, so entry
(c, h, w) is divided by the standard deviation of the height-column
(c, ·, w). `sq` stands for the (real) square root. -/
def frameNorm {α : Type} [Field α] (sq : α → α) (x : Frame α) : Frame α :=
  x.map (fun ch => ch.map (fun row =>
    mapFrom (fun w v => v / sq (uvar (column ch w))) 0 row))

/-- `nodes.py` lines 30-32, `normalized_noises(noises)` with `noises`
in TCHW form: `torch.stack([x / x.std(1, keepdim=True) for x in noises])`. -/
def normalized_noises {α : Type} [Field α] (sq : α → α)
    (noises : List (Frame α)) : List (Frame α) :=
  noises.map (frameNorm sq)

/-- `torch.randn_like`: a fresh tensor of the same (T, C, H, W) shape,
entries drawn from the generator `g` (one value per position). -/
def randn_like {α : Type} (g : ℕ → ℕ → ℕ → ℕ → α) (x : List (Frame α)) :
    List (Frame α) :=
  mapFrom (fun t f => mapFrom (fun c ch => mapFrom (fun h row =>
    mapFrom (fun w _ => g t c h w) 0 row) 0 ch) 0 f) 0 x

/-- `nodes.py` lines 15-25, `get_downtemp_noise(noise,
noise_downtemp_interp, interp_to)`: dispatch on the policy string,
any unrecognised policy falls through to returning `noise` unchanged.
`sq` is the square-root function used by the `blend_norm` branch and
`g` the fresh-noise generator used by the `randn` branch. -/
def get_downtemp_noise {α : Type} [Field α] (sq : α → α)
    (g : ℕ → ℕ → ℕ → ℕ → α) (noise : List (Frame α))
    (noise_downtemp_interp : String) (interp_to : ℕ) :
    Option (List (Frame α)) :=
  if noise_downtemp_interp = "nearest" then
    resize_list noise interp_to
  else if noise_downtemp_interp = "blend" then
    downsamp_mean noise interp_to
  else if noise_downtemp_interp = "blend_norm" then
    (downsamp_mean noise interp_to).map (normalized_noises sq)
  else if noise_downtemp_interp = "randn" then
    (resize_list noise interp_to).map (randn_like g)
  else
    some noise

/-- The normalization the spec describes for `blend_norm`: each
element divided by the per-channel standard deviation over the
entire spatial extent (all H×W positions of that channel). Stated
from the spec's words, to be compared with `frameNorm` (the code). -/
def specSpatialNorm {α : Type} [Field α] (sq : α → α) (x : Frame α) : Frame α :=
  x.map (fun ch => ch.map (fun row => row.map (fun v => v / sq (uvar ch.flatten))))

/-- Modelled from the spec: `mix_new_noise` is defined in
`noisewarp/noise_warp.py`, which is not under `src/`. Spec 4.3:
"output = sqrt(1 - d) · existing + sqrt(d) · fresh, elementwise,
where fresh is drawn independently per call". `sq` is the square
root, `g` the fresh standard-normal generator (one draw per tensor
position). -/
def mix_new_noise {α : Type} [Field α] (sq : α → α)
    (g : ℕ → ℕ → ℕ → ℕ → α) (noise : List (Frame α)) (d : α) :
    List (Frame α) :=
  mapFrom (fun t f => mapFrom (fun c ch => mapFrom (fun h row =>
    mapFrom (fun w v => sq (1 - d) * v + sq d * g t c h w) 0 row) 0 ch) 0 f)
    0 noise

/-- The torch global random source: a stream of draws plus a cursor.
All library sampling calls read from this state. -/
structure TorchRNG (α : Type) where
  stream : ℕ → α
  pos : ℕ

/-- `torch.manual_seed(seed)`: replace the global random state by the
state determined by `seed` alone (`seedStream` is the library's
seed-to-stream function; the previous state is discarded). -/
def manual_seed {α : Type} (seedStream : ℕ → ℕ → α) (seed : ℕ)
    (_g : TorchRNG α) : TorchRNG α :=
  ⟨seedStream seed, 0⟩

/-- Consume one sampling call's worth of the global stream: the call
reads fresh values (indexed by `Nat.pair` of cursor and offset) and
the cursor advances. -/
def rngUse {α : Type} (g : TorchRNG α) : (ℕ → α) × TorchRNG α :=
  (fun n => g.stream (Nat.pair g.pos n), ⟨g.stream, g.pos + 1⟩)

/-- A video frame as handed to the flow provider (opaque layout). -/
def Image (α : Type) : Type := List (List (List α))

/-- A displacement field (dx, dy) as returned by the flow provider. -/
def FlowField (α : Type) : Type := List (List α) × List (List α)

/-- `nodes.py` lines 98-101, `downscale_noise`: area interpolation by
`1/downscale_factor` (the interpolation kernel `area_interp` is a
torch internal, taken as a parameter) followed by multiplication by
`downscale_factor` to adjust the standard deviation. In the pipeline
`downscale_factor = round(resize_frames * resize_flow) * 8 = 8`. -/
def downscale_noise {α : Type} [Field α] (area_interp : Frame α → Frame α)
    (noise : Frame α) : Frame α :=
  frameScale ((8 : ℕ) : α) (area_interp noise)

/-- `nodes.py` lines 156-159: axis rearrangement of the (T, C, H, W)
result. "BTCHW" permutes the temporal and channel axes
(`permute(0, 2, 1, 3, 4)` after the batch dim is prepended); "BCHW"
squeezes the batch axis, identity on the batchless model; the default
("BCTHW") is the identity. -/
def permute_latent {α : Type} (latent_shape : String)
    (t : List (Frame α)) : List (Frame α) :=
  if latent_shape = "BTCHW" then
    (t.map (fun f => f.map (fun ch => ch))).transpose
  else t

/-- `nodes.py` lines 80-161, `GetWarpedNoiseFromVideo.warp`, modelled
on the core data flow. External collaborators are parameters:
`raft` (the RAFT optical-flow model, spec §6: a pure function of the
two frames), `warperInitF` and `warperStep` (the `NoiseWarper` from
`noisewarp/noise_warp.py`, not under `src/`; per spec §4.1 it is a
deterministic state transformer whose fresh noise comes from the
seeded global stream, passed here explicitly), and `area_interp`
(torch's area interpolation). The float16 round-trips of the
snapshots are the identity in this exact-arithmetic model. An empty
frame list (`video_frames[0]` raises) is `none`. -/
def warp {α : Type} [Field α] (seedStream : ℕ → ℕ → α)
    (raft : Image α → Image α → FlowField α)
    (warperInitF : (ℕ → α) → Frame α)
    (warperStep : Frame α → FlowField α → (ℕ → α) → Frame α)
    (area_interp : Frame α → Frame α) (sq : α → α)
    (g0 : TorchRNG α) (images : List (Image α))
    (noise_downtemp_interp : String) (target_latent_count : ℕ)
    (degradation : α) (latent_shape : String) (seed : ℕ) :
    Option (List (Frame α)) :=
  match images with
  | [] => none
  | img0 :: rest =>
    let g := manual_seed seedStream seed g0
    let (initDraws, g1) := rngUse g
    let field0 := warperInitF initDraws
    let st := rest.foldl
      (fun (st : Image α × Frame α × TorchRNG α × List (Frame α)) frame =>
        let (prev, fld, gg, acc) := st
        let flow := raft prev frame
        let (draws, gg') := rngUse gg
        let fld' := warperStep fld flow draws
        (frame, fld', gg', acc ++ [downscale_noise area_interp fld']))
      (img0, field0, g1, [downscale_noise area_interp field0])
    let noises := st.2.2.2
    let (dg, g2) := rngUse st.2.2.1
    let downtemp := get_downtemp_noise sq
      (fun t c h w => dg (Nat.pair t (Nat.pair c (Nat.pair h w))))
      noises noise_downtemp_interp target_latent_count
    let (dm, _) := rngUse g2
    downtemp.map (fun ys => permute_latent latent_shape
      (mix_new_noise sq
        (fun t c h w => dm (Nat.pair t (Nat.pair c (Nat.pair h w))))
        ys degradation))

/-- Entry (k, c, h, w) of a (T, C, H, W) tensor, defaulting to `0`
out of range. -/
def entry4 {α : Type} [Field α] (t : List (Frame α)) (k c h w : ℕ) : α :=
  (((t.getD k []).getD c []).getD h []).getD w 0

theorem resizeStep_nonneg (L T : ℕ) : 0 ≤ resizeStep L T := by
  unfold resizeStep
  split_ifs with h
  · apply div_nonneg
    · have : (1 : ℚ) ≤ (L : ℚ) := by exact_mod_cast Nat.one_le_iff_ne_zero.mpr (by omega)
      linarith
    · have : (1 : ℚ) ≤ (T : ℚ) := by exact_mod_cast Nat.one_le_iff_ne_zero.mpr (by omega)
      linarith
  · exact le_refl 0

theorem resizeIndices_get? (L T k : ℕ) (hk : k < T) :
    (resizeIndices L T).get? k = some (pyRound ((k : ℚ) * resizeStep L T)) := by
  simp only [resizeIndices, List.get?_eq_getElem?, List.getElem?_map,
    List.getElem?_range hk, Option.map_some']

theorem pyRound_step_nonneg (L T k : ℕ) :
    0 ≤ pyRound ((k : ℚ) * resizeStep L T) :=
  pyRound_nonneg (mul_nonneg (by positivity) (resizeStep_nonneg L T))

theorem pyRound_step_le (L T k : ℕ) (hL : 1 ≤ L) (hk : k < T) :
    pyRound ((k : ℚ) * resizeStep L T) ≤ (L : ℤ) - 1 := by
  have hle : (k : ℚ) * resizeStep L T ≤ (L : ℚ) - 1 := by
    unfold resizeStep
    split_ifs with h
    · obtain ⟨hL1, hT1⟩ := h
      have hT : (0 : ℚ) < (T : ℚ) - 1 := by
        have : (1 : ℚ) < (T : ℚ) := by exact_mod_cast hT1
        linarith
      have hk' : (k : ℚ) ≤ (T : ℚ) - 1 := by
        have : (k : ℚ) + 1 ≤ (T : ℚ) := by exact_mod_cast hk
        linarith
      calc (k : ℚ) * (((L : ℚ) - 1) / ((T : ℚ) - 1))
          ≤ ((T : ℚ) - 1) * (((L : ℚ) - 1) / ((T : ℚ) - 1)) := by
            apply mul_le_mul_of_nonneg_right hk'
            apply div_nonneg _ (le_of_lt hT)
            have : (1 : ℚ) < (L : ℚ) := by exact_mod_cast hL1
            linarith
        _ = (L : ℚ) - 1 := by field_simp
    · have : (1 : ℚ) ≤ (L : ℚ) := by exact_mod_cast hL
      simp only [mul_zero]
      linarith
  have hmono := pyRound_mono hle
  have hcast : ((L : ℚ) - 1) = (((L : ℤ) - 1 : ℤ) : ℚ) := by push_cast; ring
  rw [hcast, pyRound_intCast] at hmono
  exact hmono

theorem resizeIndices_mem_bounds (L T : ℕ) (hL : 1 ≤ L) :
    ∀ i ∈ resizeIndices L T, 0 ≤ i ∧ i ≤ (L : ℤ) - 1 := by
  intro i hi
  rw [resizeIndices, List.mem_map] at hi
  obtain ⟨k, hk, rfl⟩ := hi
  rw [List.mem_range] at hk
  exact ⟨pyRound_step_nonneg L T k, pyRound_step_le L T k hL hk⟩

theorem resizeIndices_length (L T : ℕ) : (resizeIndices L T).length = T := by
  simp [resizeIndices]

theorem resizeIndices_pairwise (L T : ℕ) :
    (resizeIndices L T).Pairwise (· ≤ ·) := by
  unfold resizeIndices
  rw [List.pairwise_map]
  apply List.Pairwise.imp ?_ (List.pairwise_lt_range T)
  intro a b hab
  apply pyRound_mono
  apply mul_le_mul_of_nonneg_right _ (resizeStep_nonneg L T)
  exact_mod_cast le_of_lt hab

theorem resize_list_spec {β : Type*} (l : List β) (T : ℕ)
    (hL : 1 ≤ l.length) :
    ∃ ys, resize_list l T = some ys ∧ ys.length = T ∧
      ∀ k, ys.get? k = ((resizeIndices l.length T).get? k).bind (pyIndex l) := by
  have hall : ∀ i ∈ resizeIndices l.length T, (pyIndex l i).isSome := by
    intro i hi
    obtain ⟨h0, h1⟩ := resizeIndices_mem_bounds l.length T hL i hi
    rw [pyIndex_of_nonneg l i h0]
    have hlt : i.toNat < l.length := by omega
    rw [List.get?_eq_get hlt]
    rfl
  obtain ⟨ys, hys⟩ := optionMap_isSome _ _ hall
  refine ⟨ys, hys, ?_, fun k => optionMap_get? _ _ _ hys k⟩
  rw [optionMap_length _ _ _ hys, resizeIndices_length]

theorem split_idx_le (L n i j : ℕ) (h : i ≤ j) : i * L / n ≤ j * L / n :=
  Nat.div_le_div_right (Nat.mul_le_mul_right L h)

theorem flatten_slices {β : Type*} (l : List β) (f : ℕ → ℕ)
    (hf : ∀ i, f i ≤ f (i + 1)) (h0 : f 0 = 0) (m : ℕ) :
    ((List.range m).map fun i => pySlice l (f i) (f (i + 1))).flatten
      = pySlice l 0 (f m) := by
  have hge : ∀ i, f 0 ≤ f i := by
    intro i
    induction i with
    | zero => exact le_refl _
    | succ j ih => exact le_trans ih (hf j)
  induction m with
  | zero => simp [pySlice, h0]
  | succ m ih =>
    rw [List.range_succ, List.map_append, List.flatten_append]
    simp only [List.map_cons, List.map_nil, List.flatten_cons, List.flatten_nil,
      List.append_nil, ih]
    have := pySlice_append l 0 (f m) (f (m + 1)) (h0 ▸ hge m) (hf m)
    exact this

theorem split_into_n_sublists_spec {β : Type*} (l : List β) (n : ℕ)
    (hn : 1 ≤ n) :
    ∃ bs, split_into_n_sublists l n = some bs ∧ bs.length = n ∧
      bs.flatten = l ∧
      ∀ k < n, bs.get? k
        = some (pySlice l (k * l.length / n) ((k + 1) * l.length / n)) := by
  have hn0 : n ≠ 0 := by omega
  refine ⟨_, by rw [split_into_n_sublists, if_neg hn0], by simp, ?_, ?_⟩
  · rw [flatten_slices l (fun i => i * l.length / n)
      (fun i => split_idx_le l.length n i (i + 1) (by omega)) (by simp) n]
    rw [Nat.mul_div_cancel_left l.length (by omega : 0 < n)]
    exact pySlice_zero_length l
  · intro k hk
    simp only [List.get?_eq_getElem?, List.getElem?_map, List.getElem?_range hk,
      Option.map_some']

theorem split_block_ne_nil {β : Type*} (l : List β) (n k : ℕ)
    (hn : 1 ≤ n) (hln : n ≤ l.length) (hk : k < n) :
    pySlice l (k * l.length / n) ((k + 1) * l.length / n) ≠ [] := by
  set L := l.length with hLdef
  have hstep : k * L / n + 1 ≤ (k + 1) * L / n := by
    have h1 : (k * L + n) / n ≤ (k + 1) * L / n := by
      apply Nat.div_le_div_right
      have : (k + 1) * L = k * L + L := by ring
      omega
    rwa [Nat.add_div_right _ (by omega : 0 < n)] at h1
  have hub : (k + 1) * L / n ≤ L := by
    have := split_idx_le L n (k + 1) n hk
    rwa [Nat.mul_div_cancel_left L (by omega : 0 < n)] at this
  exact pySlice_ne_nil l _ _ (by omega) (by omega)

theorem pyMean_isSome {α : Type} [Field α] (u : List (Frame α))
    (h : u ≠ []) : (pyMean u).isSome := by
  cases u with
  | nil => exact absurd rfl h
  | cons f fs => rfl

theorem downsamp_mean_spec {α : Type} [Field α] (x : List (Frame α)) (n : ℕ)
    (hn : 1 ≤ n) (hln : n ≤ x.length) :
    ∃ ys, downsamp_mean x n = some ys ∧ ys.length = n ∧
      ∀ k < n, ys.get? k
        = pyMean (pySlice x (k * x.length / n) ((k + 1) * x.length / n)) := by
  obtain ⟨bs, hbs, hlen, _, hget⟩ := split_into_n_sublists_spec x n hn
  have hall : ∀ u ∈ bs, (pyMean u).isSome := by
    intro u hu
    obtain ⟨k, hk⟩ := List.mem_iff_get?.mp hu
    have hklen : k < bs.length := by
      by_contra hbad
      rw [List.get?_eq_none.mpr (by omega)] at hk
      exact Option.noConfusion hk
    rw [hlen] at hklen
    have hu' : u = pySlice x (k * x.length / n) ((k + 1) * x.length / n) := by
      have := (hget k hklen).symm.trans hk
      exact (Option.some.inj this).symm
    rw [hu']
    exact pyMean_isSome _ (split_block_ne_nil x n k hn hln hklen)
  obtain ⟨ys, hys⟩ := optionMap_isSome _ _ hall
  refine ⟨ys, ?_, ?_, ?_⟩
  · rw [downsamp_mean, hbs]
    exact hys
  · rw [optionMap_length _ _ _ hys, hlen]
  · intro k hk
    rw [optionMap_get? _ _ _ hys k, hget k hk]
    rfl

theorem gdn_nearest {α : Type} [Field α] (sq : α → α) (g : ℕ → ℕ → ℕ → ℕ → α)
    (noise : List (Frame α)) (T : ℕ) :
    get_downtemp_noise sq g noise "nearest" T = resize_list noise T := rfl

theorem gdn_blend {α : Type} [Field α] (sq : α → α) (g : ℕ → ℕ → ℕ → ℕ → α)
    (noise : List (Frame α)) (T : ℕ) :
    get_downtemp_noise sq g noise "blend" T = downsamp_mean noise T := rfl

theorem gdn_blend_norm {α : Type} [Field α] (sq : α → α) (g : ℕ → ℕ → ℕ → ℕ → α)
    (noise : List (Frame α)) (T : ℕ) :
    get_downtemp_noise sq g noise "blend_norm" T
      = (downsamp_mean noise T).map (normalized_noises sq) := rfl

theorem gdn_randn {α : Type} [Field α] (sq : α → α) (g : ℕ → ℕ → ℕ → ℕ → α)
    (noise : List (Frame α)) (T : ℕ) :
    get_downtemp_noise sq g noise "randn" T
      = (resize_list noise T).map (randn_like g) := rfl

theorem gdn_default {α : Type} [Field α] (sq : α → α) (g : ℕ → ℕ → ℕ → ℕ → α)
    (noise : List (Frame α)) (T : ℕ) (p : String) (h1 : p ≠ "nearest")
    (h2 : p ≠ "blend") (h3 : p ≠ "blend_norm") (h4 : p ≠ "randn") :
    get_downtemp_noise sq g noise p T = some noise := by
  simp [get_downtemp_noise, h1, h2, h3, h4]

theorem normalized_noises_length {α : Type} [Field α] (sq : α → α)
    (ys : List (Frame α)) : (normalized_noises sq ys).length = ys.length :=
  List.length_map ys _

theorem randn_like_length {α : Type} (g : ℕ → ℕ → ℕ → ℕ → α)
    (x : List (Frame α)) : (randn_like g x).length = x.length :=
  mapFrom_length _ 0 x

/-- C10: for every non-empty source list and every target length `T`
(`T = 0` gives the empty result), all indices computed by
`resize_list` lie in `[0, L-1]`, are monotonically non-decreasing,
and the gather succeeds with exactly `T` output elements. -/
theorem claim_C10 {β : Type*} (l : List β) (T : ℕ) (hL : 1 ≤ l.length) :
    (∀ i ∈ resizeIndices l.length T, 0 ≤ i ∧ i ≤ (l.length : ℤ) - 1) ∧
    (resizeIndices l.length T).Pairwise (· ≤ ·) ∧
    ∃ ys, resize_list l T = some ys ∧ ys.length = T :=
  ⟨resizeIndices_mem_bounds _ _ hL, resizeIndices_pairwise _ _,
    (resize_list_spec l T hL).imp fun _ h => ⟨h.1, h.2.1⟩⟩

/-- Witness for C10 at `l = [5, 6]`, `T = 3`. -/
theorem claim_C10_witness :
    1 ≤ ([5, 6] : List ℕ).length ∧
    ((∀ i ∈ resizeIndices ([5, 6] : List ℕ).length 3, 0 ≤ i ∧ i ≤ (([5, 6] : List ℕ).length : ℤ) - 1) ∧
     (resizeIndices ([5, 6] : List ℕ).length 3).Pairwise (· ≤ ·) ∧
     ∃ ys, resize_list ([5, 6] : List ℕ) 3 = some ys ∧ ys.length = 3) :=
  ⟨by decide, claim_C10 [5, 6] 3 (by decide)⟩

/-- C4: the `nearest` policy gathers the elements at indices
`round(i*(L-1)/(T-1))` (Python's round-half-to-even, on the exact
rational value) when `L > 1` and `T > 1`, and index `0` for every
output position when `L = 1` or `T = 1`. -/
theorem claim_C4 {β : Type*} (l : List β) (L T : ℕ) (hL : l.length = L)
    (h1 : 1 ≤ L) :
    ∃ ys, resize_list l T = some ys ∧ ys.length = T ∧
      (1 < L → 1 < T → ∀ k < T,
        ys.get? k
          = l.get? (pyRound ((k : ℚ) * (((L : ℚ) - 1) / ((T : ℚ) - 1)))).toNat) ∧
      ((L = 1 ∨ T = 1) → ∀ k < T, ys.get? k = l.get? 0) := by
  subst hL
  obtain ⟨ys, hys, hlen, hget⟩ := resize_list_spec l T h1
  refine ⟨ys, hys, hlen, ?_, ?_⟩
  · intro hL1 hT1 k hk
    rw [hget k, resizeIndices_get? _ _ _ hk]
    have hstep : resizeStep l.length T = ((l.length : ℚ) - 1) / ((T : ℚ) - 1) := by
      unfold resizeStep
      rw [if_pos ⟨hL1, hT1⟩]
    have hnn := pyRound_step_nonneg l.length T k
    show pyIndex l (pyRound ((k : ℚ) * resizeStep l.length T)) = _
    rw [pyIndex_of_nonneg _ _ hnn, hstep]
  · intro hdeg k hk
    rw [hget k, resizeIndices_get? _ _ _ hk]
    have hstep : resizeStep l.length T = 0 := by
      unfold resizeStep
      rw [if_neg]
      rcases hdeg with h | h <;> omega
    have h0 : pyRound ((k : ℚ) * resizeStep l.length T) = 0 := by
      rw [hstep, mul_zero]
      simpa using pyRound_intCast 0
    show pyIndex l (pyRound ((k : ℚ) * resizeStep l.length T)) = _
    rw [h0, pyIndex_of_nonneg _ _ (le_refl 0)]
    rfl

/-- Witness for C4 at `l = [10, 20, 30]`, `T = 2`. -/
theorem claim_C4_witness :
    ([10, 20, 30] : List ℕ).length = 3 ∧ 1 ≤ 3 ∧
    (∃ ys, resize_list ([10, 20, 30] : List ℕ) 2 = some ys ∧ ys.length = 2 ∧
      (1 < 3 → 1 < 2 → ∀ k < 2,
        ys.get? k
          = ([10, 20, 30] : List ℕ).get? (pyRound ((k : ℚ) * (((3 : ℚ) - 1) / ((2 : ℚ) - 1)))).toNat) ∧
      ((3 = 1 ∨ 2 = 1) → ∀ k < 2, ys.get? k = ([10, 20, 30] : List ℕ).get? 0)) :=
  ⟨by decide, by decide, claim_C4 [10, 20, 30] 3 2 (by decide) (by decide)⟩

/-- C3: `split_into_n_sublists` yields, for `n ≥ 1`, exactly `n`
contiguous blocks whose concatenation in order is the source list
(no gaps, no overlaps). -/
theorem claim_C3 {β : Type*} (l : List β) (n : ℕ) (hn : 1 ≤ n) :
    ∃ bs, split_into_n_sublists l n = some bs ∧ bs.length = n ∧
      bs.flatten = l :=
  (split_into_n_sublists_spec l n hn).imp fun _ h => ⟨h.1, h.2.1, h.2.2.1⟩

/-- Witness for C3 at `l = [0, 1, 2, 3, 4]`, `n = 2`. -/
theorem claim_C3_witness :
    1 ≤ 2 ∧ ∃ bs, split_into_n_sublists ([0, 1, 2, 3, 4] : List ℕ) 2 = some bs ∧
      bs.length = 2 ∧ bs.flatten = [0, 1, 2, 3, 4] :=
  ⟨by decide, claim_C3 [0, 1, 2, 3, 4] 2 (by decide)⟩

/-- C2 counterexample: for `L = 1 < T = 3` the claim fails — the
`blend` policy has empty blocks, `sum(u)/len(u)` divides by zero, and
there is no output at all (Python raises `ZeroDivisionError`). -/
theorem claim_C2_counterexample :
    get_downtemp_noise id (fun _ _ _ _ => (0 : ℚ)) [[[[1]]]] "blend" 3
      = none := by decide

/-- C2 (amended: additionally `T ≤ L`, forced by the counterexample —
for `L < T` some block is empty and the mean divides by zero): the
`blend` policy partitions the source into `T` contiguous blocks with
boundaries `⌊k·L/T⌋` and output element `k` is the arithmetic mean
(`sum(u)/len(u)`, i.e. `pyMean`) of block `k`. -/
theorem claim_C2 {α : Type} [Field α] (sq : α → α) (g : ℕ → ℕ → ℕ → ℕ → α)
    (noise : List (Frame α)) (L T : ℕ) (hL : noise.length = L)
    (hT : 1 ≤ T) (hLT : T ≤ L) :
    ∃ ys, get_downtemp_noise sq g noise "blend" T = some ys ∧
      ys.length = T ∧
      ∀ k < T, ys.get? k = pyMean (pySlice noise (k * L / T) ((k + 1) * L / T)) := by
  subst hL
  rw [gdn_blend]
  exact downsamp_mean_spec noise T hT hLT

/-- Witness for C2 at two one-pixel frames, `T = 2`. -/
theorem claim_C2_witness :
    ([[[[2]]], [[[4]]]] : List (Frame ℚ)).length = 2 ∧ 1 ≤ 2 ∧ 2 ≤ 2 ∧
    (∃ ys, get_downtemp_noise id (fun _ _ _ _ => (0 : ℚ)) [[[[2]]], [[[4]]]] "blend" 2
        = some ys ∧ ys.length = 2 ∧
      ∀ k < 2, ys.get? k
        = pyMean (pySlice ([[[[2]]], [[[4]]]] : List (Frame ℚ)) (k * 2 / 2) ((k + 1) * 2 / 2))) :=
  ⟨by decide, by decide, by decide,
    claim_C2 id (fun _ _ _ _ => (0 : ℚ)) [[[[2]]], [[[4]]]] 2 2 (by decide)
      (by decide) (by decide)⟩

/-- C1 counterexample: for the `blend` policy with `L = 1 < T = 2`
there is no output of length `T` — the call fails with a
`ZeroDivisionError` on an empty block (result `none`). -/
theorem claim_C1_counterexample :
    get_downtemp_noise id (fun _ _ _ _ => (0 : ℚ)) [[[[0]]]] "blend" 2
      = none := by decide

/-- C1 (amended: for `nearest` and `randn` the length invariant holds
for every `L ≥ 1`, `T ≥ 1`; for `blend` and `blend_norm` it
additionally requires `L ≥ T` — when `L < T` an empty block makes the
mean divide by zero, forced by the counterexample): the resampler
output has exactly `T` elements. -/
theorem claim_C1 {α : Type} [Field α] (sq : α → α) (g : ℕ → ℕ → ℕ → ℕ → α)
    (noise : List (Frame α)) (p : String) (T : ℕ)
    (hp : p = "nearest" ∨ p = "blend" ∨ p = "blend_norm" ∨ p = "randn")
    (hL : 1 ≤ noise.length) (hT : 1 ≤ T)
    (hblend : p = "blend" ∨ p = "blend_norm" → T ≤ noise.length) :
    ∃ ys, get_downtemp_noise sq g noise p T = some ys ∧ ys.length = T := by
  rcases hp with rfl | rfl | rfl | rfl
  · rw [gdn_nearest]
    exact (resize_list_spec noise T hL).imp fun _ h => ⟨h.1, h.2.1⟩
  · rw [gdn_blend]
    exact (downsamp_mean_spec noise T hT (hblend (Or.inl rfl))).imp
      fun _ h => ⟨h.1, h.2.1⟩
  · rw [gdn_blend_norm]
    obtain ⟨ys, hys, hlen, _⟩ :=
      downsamp_mean_spec noise T hT (hblend (Or.inr rfl))
    exact ⟨normalized_noises sq ys, by rw [hys]; rfl,
      by rw [normalized_noises_length, hlen]⟩
  · rw [gdn_randn]
    obtain ⟨ys, hys, hlen, _⟩ := resize_list_spec noise T hL
    exact ⟨randn_like g ys, by rw [hys]; rfl,
      by rw [randn_like_length, hlen]⟩

/-- Witness for C1: `randn` policy, `L = 1`, `T = 3`. -/
theorem claim_C1_witness :
    ("randn" = "nearest" ∨ "randn" = "blend" ∨ "randn" = "blend_norm" ∨
      "randn" = "randn") ∧
    1 ≤ ([[[[7]]]] : List (Frame ℚ)).length ∧ 1 ≤ 3 ∧
    ("randn" = "blend" ∨ "randn" = "blend_norm" → 3 ≤ ([[[[7]]]] : List (Frame ℚ)).length) ∧
    ∃ ys, get_downtemp_noise id (fun _ _ _ _ => (5 : ℚ)) [[[[7]]]] "randn" 3
        = some ys ∧ ys.length = 3 :=
  ⟨by decide, by decide, by decide, by decide,
    claim_C1 id (fun _ _ _ _ => (5 : ℚ)) [[[[7]]]] "randn" 3 (by decide)
      (by decide) (by decide) (by decide)⟩

/-- C5: `nearest` and `randn` with a length-1 source or target never
hit the division branch (the step degenerates to 0) and produce a
defined output of exactly the requested length; in this exact-field
model definedness (`some`) rules out both the division error and NaN. -/
theorem claim_C5 {α : Type} [Field α] (sq : α → α) (g : ℕ → ℕ → ℕ → ℕ → α)
    (noise : List (Frame α)) (p : String) (T : ℕ)
    (hp : p = "nearest" ∨ p = "randn") (hL : 1 ≤ noise.length) (hT : 1 ≤ T)
    (hdeg : noise.length = 1 ∨ T = 1) :
    ∃ ys, get_downtemp_noise sq g noise p T = some ys ∧ ys.length = T := by
  rcases hp with rfl | rfl
  · rw [gdn_nearest]
    exact (resize_list_spec noise T hL).imp fun _ h => ⟨h.1, h.2.1⟩
  · rw [gdn_randn]
    obtain ⟨ys, hys, hlen, _⟩ := resize_list_spec noise T hL
    exact ⟨randn_like g ys, by rw [hys]; rfl,
      by rw [randn_like_length, hlen]⟩

/-- Witness for C5: `nearest`, source length 1, `T = 4`. -/
theorem claim_C5_witness :
    ("nearest" = "nearest" ∨ "nearest" = "randn") ∧
    1 ≤ ([[[[9]]]] : List (Frame ℚ)).length ∧ 1 ≤ 4 ∧
    (([[[[9]]]] : List (Frame ℚ)).length = 1 ∨ 4 = 1) ∧
    ∃ ys, get_downtemp_noise id (fun _ _ _ _ => (0 : ℚ)) [[[[9]]]] "nearest" 4
        = some ys ∧ ys.length = 4 :=
  ⟨by decide, by decide, by decide, by decide,
    claim_C5 id (fun _ _ _ _ => (0 : ℚ)) [[[[9]]]] "nearest" 4 (by decide)
      (by decide) (by decide) (by decide)⟩

/-- C6: any policy name other than the four recognised ones
(including "disabled") makes `get_downtemp_noise` return the source
sequence unchanged, not an error. -/
theorem claim_C6 {α : Type} [Field α] (sq : α → α) (g : ℕ → ℕ → ℕ → ℕ → α)
    (noise : List (Frame α)) (T : ℕ) (p : String) (h1 : p ≠ "nearest")
    (h2 : p ≠ "blend") (h3 : p ≠ "blend_norm") (h4 : p ≠ "randn") :
    get_downtemp_noise sq g noise p T = some noise :=
  gdn_default sq g noise T p h1 h2 h3 h4

/-- Witness for C6: policy "disabled". -/
theorem claim_C6_witness :
    ("disabled" ≠ "nearest") ∧ ("disabled" ≠ "blend") ∧
    ("disabled" ≠ "blend_norm") ∧ ("disabled" ≠ "randn") ∧
    get_downtemp_noise id (fun _ _ _ _ => (0 : ℚ)) [[[[3]]], [[[4]]]] "disabled" 5
      = some [[[[3]]], [[[4]]]] :=
  ⟨by decide, by decide, by decide, by decide,
    claim_C6 id (fun _ _ _ _ => (0 : ℚ)) [[[[3]]], [[[4]]]] 5 "disabled"
      (by decide) (by decide) (by decide) (by decide)⟩

/-- C8: at degradation `d = 0` the Noise Mixer is the identity: the
power-preserving mix `sqrt(1-d)·existing + sqrt(d)·fresh` (the
spec-modelled definition of `mix_new_noise`) collapses to the input
exactly, whatever fresh noise the generator supplies. -/
theorem claim_C8 (g : ℕ → ℕ → ℕ → ℕ → ℝ) (noise : List (Frame ℝ)) :
    mix_new_noise Real.sqrt g noise 0 = noise := by
  unfold mix_new_noise
  simp only [sub_zero, Real.sqrt_one, Real.sqrt_zero, one_mul, zero_mul,
    add_zero, mapFrom_id]

/-- C9: the pipeline seeds the global random source from `seed` alone
(`torch.manual_seed` discards the pre-existing state), so two runs of
`warp` from arbitrary prior global RNG states `g` and `g'`, with the
same seed and the same inputs, produce identical outputs — for every
deterministic flow provider, noise warper and interpolation kernel. -/
theorem claim_C9 {α : Type} [Field α] (seedStream : ℕ → ℕ → α)
    (raft : Image α → Image α → FlowField α)
    (warperInitF : (ℕ → α) → Frame α)
    (warperStep : Frame α → FlowField α → (ℕ → α) → Frame α)
    (area_interp : Frame α → Frame α) (sq : α → α)
    (g g' : TorchRNG α) (images : List (Image α)) (p : String) (T : ℕ)
    (d : α) (ls : String) (seed : ℕ) :
    warp seedStream raft warperInitF warperStep area_interp sq g
        images p T d ls seed
      = warp seedStream raft warperInitF warperStep area_interp sq g'
        images p T d ls seed := by
  cases images <;> rfl

theorem map_getD {γ δ : Type*} (f : γ → δ) (l : List γ) (n : ℕ) (d : γ) :
    (l.map f).getD n (f d) = f (l.getD n d) := by
  rw [List.getD_eq_getD_get?, List.getD_eq_getD_get?, List.get?_map]
  cases l.get? n <;> simp

/-- C7 (amended: the code divides each element of the blend output by
the standard deviation over the *height* axis, computed separately
for each (channel, width) position — `x.std(1, keepdim=True)` on a
CHW tensor reduces dim 1 = H — not by the per-channel std over the
entire spatial extent, and unit per-channel std is not guaranteed):
for `blend_norm`, whenever the blend stage succeeds, entry
(k, c, i, w) of the output is entry (k, c, i, w) of the blend output
divided by `sq` of the Bessel-corrected variance of the height-column
(c, ·, w) of blend element k. -/
theorem claim_C7 {α : Type} [Field α] (sq : α → α) (g : ℕ → ℕ → ℕ → ℕ → α)
    (noise ys : List (Frame α)) (T : ℕ)
    (hdm : downsamp_mean noise T = some ys) :
    get_downtemp_noise sq g noise "blend_norm" T
      = some (normalized_noises sq ys) ∧
    ∀ k c i w, entry4 (normalized_noises sq ys) k c i w
      = entry4 ys k c i w
        / sq (uvar (column ((ys.getD k []).getD c []) w)) := by
  constructor
  · rw [gdn_blend_norm, hdm]
    rfl
  · intro k c i w
    unfold entry4 normalized_noises
    rw [show (ys.map (frameNorm sq)).getD k [] = frameNorm sq (ys.getD k [])
      from map_getD (frameNorm sq) ys k []]
    unfold frameNorm
    rw [show ((ys.getD k []).map (fun ch => ch.map (fun row =>
          mapFrom (fun w v => v / sq (uvar (column ch w))) 0 row))).getD c []
        = ((ys.getD k []).getD c []).map (fun row =>
          mapFrom (fun w v => v / sq (uvar (column ((ys.getD k []).getD c []) w))) 0 row)
      from map_getD _ (ys.getD k []) c []]
    rw [show (((ys.getD k []).getD c []).map (fun row =>
          mapFrom (fun w v => v / sq (uvar (column ((ys.getD k []).getD c []) w))) 0 row)).getD i []
        = mapFrom (fun w v => v / sq (uvar (column ((ys.getD k []).getD c []) w))) 0
            (((ys.getD k []).getD c []).getD i [])
      from map_getD _ ((ys.getD k []).getD c []) i []]
    rw [List.getD_eq_getD_get? _ (0 : α), mapFrom_get?]
    rw [List.getD_eq_getD_get? (((ys.getD k []).getD c []).getD i []) (0 : α)]
    cases hw : (((ys.getD k []).getD c []).getD i []).get? w with
    | none => simp [zero_div]
    | some v => simp

/-- Witness for C7: one 1×2×1 frame, `T = 1`, over `ℚ` with `sq = id`. -/
theorem claim_C7_witness :
    downsamp_mean ([[[[1], [3]]]] : List (Frame ℚ)) 1
        = some [frameDiv [[[1], [3]]] 1] ∧
    (get_downtemp_noise id (fun _ _ _ _ => (0 : ℚ)) [[[[1], [3]]]] "blend_norm" 1
        = some (normalized_noises id [frameDiv [[[1], [3]]] 1]) ∧
     ∀ k c i w, entry4 (normalized_noises id ([frameDiv [[[1], [3]]] 1] : List (Frame ℚ))) k c i w
       = entry4 ([frameDiv [[[1], [3]]] 1] : List (Frame ℚ)) k c i w
         / id (uvar (column ((([frameDiv [[[1], [3]]] 1] : List (Frame ℚ)).getD k []).getD c []) w))) :=
  ⟨rfl,
    claim_C7 id (fun _ _ _ _ => (0 : ℚ)) [[[[1], [3]]]]
      [frameDiv [[[1], [3]]] 1] 1 rfl⟩

/-- C7 counterexample: on a concrete 1×3×2 blend output whose first
height-column has std 1 while the full-channel spatial std is √2, the
code's `blend_norm` output differs from the claim's
divide-by-per-channel-spatial-std output (`specSpatialNorm`): entry
(0,0,0,0) is 1 for the code but 1/√2 for the claim. -/
theorem claim_C7_counterexample :
    get_downtemp_noise Real.sqrt (fun _ _ _ _ => 0)
        [[[[1, 0], [2, 2], [3, 4]]]] "blend_norm" 1
      ≠ (get_downtemp_noise Real.sqrt (fun _ _ _ _ => 0)
          [[[[1, 0], [2, 2], [3, 4]]]] "blend" 1).map
        (List.map (specSpatialNorm Real.sqrt)) := by
  intro hEq
  have h1 : get_downtemp_noise Real.sqrt (fun _ _ _ _ => (0 : ℝ))
      [[[[1, 0], [2, 2], [3, 4]]]] "blend" 1
      = some [frameDiv [[[1, 0], [2, 2], [3, 4]]] 1] := rfl
  have h2 : get_downtemp_noise Real.sqrt (fun _ _ _ _ => (0 : ℝ))
      [[[[1, 0], [2, 2], [3, 4]]]] "blend_norm" 1
      = some [frameNorm Real.sqrt (frameDiv [[[1, 0], [2, 2], [3, 4]]] 1)] := rfl
  rw [h1, h2, Option.map_some'] at hEq
  have hEq' := Option.some.inj hEq
  have hent : entry4 ([frameNorm Real.sqrt (frameDiv [[[1, 0], [2, 2], [3, 4]]] 1)] : List (Frame ℝ)) 0 0 0 0
      = entry4 (List.map (specSpatialNorm Real.sqrt) [frameDiv [[[1, 0], [2, 2], [3, 4]]] 1] : List (Frame ℝ)) 0 0 0 0 :=
    congrArg (fun t => entry4 t 0 0 0 0) hEq'
  have hL : entry4 ([frameNorm Real.sqrt (frameDiv [[[1, 0], [2, 2], [3, 4]]] 1)] : List (Frame ℝ)) 0 0 0 0 = 1 := by
    norm_num [entry4, frameNorm, frameDiv, column, uvar, lmean, mapFrom,
      List.getD_cons_zero, Real.sqrt_one]
  have hR : entry4 (List.map (specSpatialNorm Real.sqrt) [frameDiv [[[1, 0], [2, 2], [3, 4]]] 1] : List (Frame ℝ)) 0 0 0 0
      = 1 / Real.sqrt 2 := by
    norm_num [entry4, specSpatialNorm, frameDiv, uvar, lmean,
      List.getD_cons_zero]
  rw [hL, hR] at hent
  have hs2 : (1 : ℝ) < Real.sqrt 2 := by
    rw [show (1 : ℝ) = Real.sqrt 1 from (Real.sqrt_one).symm]
    exact Real.sqrt_lt_sqrt (by norm_num) (by norm_num)
  have hlt : 1 / Real.sqrt 2 < 1 := by
    rw [div_lt_one (by positivity)]
    exact hs2
  rw [← hent] at hlt
  exact absurd hlt (by norm_num)
